import Mathlib

/-!
A shallow embedding of the core of `src/app.js` (a local video browser):
the query engine (`parseToken`, `cmp`, `render`), the tag editing
operations (`addTag`, tag-chip removal), the enrichment pipeline's
finalize gate (`enrichOne`), the object-URL resource registry
(`trackObjectURL` / `revokeTrackedURL` / `cleanupItem`), and the
three-worker scheduler of `enrichAll`.

Conventions of the embedding:
* JavaScript numbers are modelled as `ℚ` (all values occurring in the
  program's comparisons are exactly representable).
* JavaScript strings are `String`; the case-insensitive matching done by
  the `/i` regular expressions and `toLowerCase()` is modelled by mapping
  `Char.toLower` over the character list.
* `undefined` fields (`item.duration`, `item.url`) are `Option` values;
  the JS idiom `x || 0` on a possibly-absent number is `orZero`.
* Object URLs are identified by the order of their creation (`ℕ`); the
  global `objectURLs` set is a duplicate-free `List ℕ` in insertion
  order, exactly the iteration order of a JS `Set`.
* Display-only item fields of the source (`id`, `type`, `file`, `thumb`)
  play no role in any claim and are omitted from the record.
-/

namespace App

/-- One catalog entry, as built by `walkDir` / `scanWithDirectoryInput`
(`src/app.js` lines 101-105 and 123-131). -/
structure Item where
  name : String
  path : String
  size : ℚ
  mtime : ℚ
  duration : Option ℚ
  tags : List String
  url : Option ℕ
deriving DecidableEq, Repr

/-- The JS idiom `x || 0` for a possibly-absent non-negative number:
`undefined` becomes `0`, and `0` itself also maps to `0`. -/
def orZero : Option ℚ → ℚ
  | none => 0
  | some x => x

/-- Lower-case a character list; models `String.prototype.toLowerCase`
and the `/i` regex flag on the ASCII tokens the program uses. -/
def lowerL (l : List Char) : List Char := l.map Char.toLower

/-- The predicate `hasSub hay needle` models `hay.includes(needle)`: `needle` occurs as
a contiguous run inside `hay`. -/
def hasSub (hay needle : List Char) : Bool :=
  (List.range (hay.length + 1)).any fun i => needle.isPrefixOf (hay.drop i)

/-- The five comparison operators of the `dur:` / `size:` filters. -/
inductive Op where
  | lt | le | eq | gt | ge
deriving DecidableEq, Repr

/-- The comparator `cmp(a, op, b)` from `src/app.js` line 340. -/
def cmp (a : ℚ) (op : Op) (b : ℚ) : Bool :=
  match op with
  | .lt => decide (a < b)
  | .gt => decide (a > b)
  | .eq => decide (a = b)
  | .ge => decide (a ≥ b)
  | .le => decide (a ≤ b)

/-- Recognise the operator alternation `(<=|>=|=|<|>)` at the head of a
character list; returns the operator and the remaining characters.
First match wins, exactly as in the regex alternation. -/
def readOp : List Char → Option (Op × List Char)
  | [] => none
  | c :: r =>
    if c = '<' then
      match r with
      | c2 :: r2 => if c2 = '=' then some (.le, r2) else some (.lt, c2 :: r2)
      | [] => some (.lt, [])
    else if c = '>' then
      match r with
      | c2 :: r2 => if c2 = '=' then some (.ge, r2) else some (.gt, c2 :: r2)
      | [] => some (.gt, [])
    else if c = '=' then some (.eq, r)
    else none

/-- Numeric value of a digit run, as `Number` would read it. -/
def digitsVal (ds : List Char) : ℕ :=
  ds.foldl (fun a c => 10 * a + (c.toNat - 48)) 0

/-- Match `^dur:(<=|>=|=|<|>)(\d+)$` case-insensitively
(`src/app.js` line 323). -/
def matchDur (l : List Char) : Option (Op × ℕ) :=
  let low := lowerL l
  if low.take 4 = ['d', 'u', 'r', ':'] then
    match readOp (low.drop 4) with
    | some (op, rest) =>
      let ds := rest.takeWhile Char.isDigit
      if ds ≠ [] ∧ rest.dropWhile Char.isDigit = [] then some (op, digitsVal ds)
      else none
    | none => none
  else none

/-- The byte multiplier for a trailing unit, per
`unit==='kb'?1024 : unit==='mb'?1024**2 : ...` (`src/app.js` line 332);
an empty remainder is the absent-unit (bytes) case. -/
def unitMul : List Char → Option ℚ
  | [] => some 1
  | ['k', 'b'] => some 1024
  | ['m', 'b'] => some (1024 ^ 2)
  | ['g', 'b'] => some (1024 ^ 3)
  | ['t', 'b'] => some (1024 ^ 4)
  | _ => none

/-- Match `^size:(<=|>=|=|<|>)(\d+(?:\.\d+)?)(kb|mb|gb|tb)?$`
case-insensitively and compute the byte threshold `Number(num) * mul`
(`src/app.js` lines 328-333). -/
def matchSize (l : List Char) : Option (Op × ℚ) :=
  let low := lowerL l
  if low.take 5 = ['s', 'i', 'z', 'e', ':'] then
    match readOp (low.drop 5) with
    | some (op, rest) =>
      let ds1 := rest.takeWhile Char.isDigit
      let r1 := rest.dropWhile Char.isDigit
      if ds1 = [] then none
      else
        match r1 with
        | '.' :: r2 =>
          let ds2 := r2.takeWhile Char.isDigit
          let r3 := r2.dropWhile Char.isDigit
          if ds2 = [] then none
          else
            match unitMul r3 with
            | some mul =>
              some (op, ((digitsVal ds1 : ℚ) + (digitsVal ds2 : ℚ) / (10 : ℚ) ^ ds2.length) * mul)
            | none => none
        | _ =>
          match unitMul r1 with
          | some mul => some (op, (digitsVal ds1 : ℚ) * mul)
          | none => none
    | none => none
  else none

/-- Models `tok.startsWith('#')`. -/
def startsHash : List Char → Bool
  | '#' :: _ => true
  | _ => false

/-- The token compiler `parseToken` from `src/app.js` lines 318-339: a `#` token matches a
tag substring, a `dur:`/`size:` token compiles to a numeric comparison,
and everything else (the regexes failing included) is a case-insensitive
substring match on name or path. -/
def parseToken (tok : String) : Item → Bool :=
  let l := tok.toList
  if startsHash l then
    let want := lowerL (l.drop 1)
    fun it => it.tags.any fun t => hasSub (lowerL t.toList) want
  else
    match matchDur l with
    | some (op, n) => fun it => cmp (orZero it.duration) op (n : ℚ)
    | none =>
      match matchSize l with
      | some (op, v) => fun it => cmp it.size op v
      | none =>
        let s := lowerL l
        fun it => hasSub (lowerL it.name.toList) s || hasSub (lowerL it.path.toList) s

/-! ## Tag editing (`addTag`, `tagChip` removal, `src/app.js` 289-304) -/

/-- First-occurrence deduplication with an accumulator of already-seen
strings; `dedupKeepFirst [] l` is the element list of `new Set(l)` in a
JS engine's insertion-iteration order. -/
def dedupKeepFirst (seen : List String) : List String → List String
  | [] => []
  | t :: rest =>
    if t ∈ seen then dedupKeepFirst seen rest
    else t :: dedupKeepFirst (t :: seen) rest

/-- Models `Array.from(new Set(l))`. -/
def jsSetDedup (l : List String) : List String := dedupKeepFirst [] l

/-- The function `addTag` (`src/app.js` 302-304):
`item.tags = Array.from(new Set([...(item.tags||[]), t]))`. -/
def addTag (tags : List String) (t : String) : List String :=
  jsSetDedup (tags ++ [t])

/-- Tag-chip click handler (`src/app.js` 295):
`item.tags = (item.tags||[]).filter(x => x!==t)`. -/
def removeTag (tags : List String) (t : String) : List String :=
  tags.filter fun x => x ≠ t

/-! ## The finalize gate of `enrichOne` (`src/app.js` 158-204)

`enrichOne` creates a `done` flag and a closure `finalize` that, when the
flag is still unset, sets it, runs `cleanupItem(item)` (revoking the
item's tracked object URL), removes the video element and resolves the
item's promise. Three triggers call it: the `seeked` handler, the
`error` handler and the 4000 ms timeout. The state below holds exactly
what those side effects touch; `resolveCount` counts calls of `resolve`. -/

structure EnrichState where
  done : Bool
  itemUrl : Option ℕ
  registry : List ℕ
  videoRemoved : Bool
  resolveCount : ℕ
deriving DecidableEq, Repr

/-- The function `revokeTrackedURL` (`src/app.js` 34-38) as its effect on the tracked
registry: `URL.revokeObjectURL(url); objectURLs.delete(url)`. -/
def revokeTrackedURL (reg : List ℕ) (u : ℕ) : List ℕ := reg.erase u

/-- The function `cleanupItem` (`src/app.js` 40-45): if the item still holds a url,
revoke it and delete the field. -/
def cleanupItem (s : EnrichState) : EnrichState :=
  match s.itemUrl with
  | some u => { s with itemUrl := none, registry := revokeTrackedURL s.registry u }
  | none => s

/-- The `finalize` closure (`src/app.js` 166-173). -/
def finalize (s : EnrichState) : EnrichState :=
  if s.done then s
  else
    let s1 := cleanupItem { s with done := true }
    { s1 with videoRemoved := true, resolveCount := s1.resolveCount + 1 }

/-- The seek target of the `loadedmetadata` handler (`src/app.js` 179):
`Math.min( Math.max(0.1, (v.duration||1) * 0.1), 1.0 )`. -/
def seekTarget (duration : ℚ) : ℚ :=
  min (max (1 / 10) ((if duration = 0 then 1 else duration) * (1 / 10))) 1

/-! ## Scanning and the object-URL registry (`src/app.js` 27-52, 93-137)

A scan first runs `revokeAllObjectURLs` (registry empty), then walks the
chosen root: every file whose name matches `VIDEO_EXT` yields an item
whose fresh object URL is recorded with `trackObjectURL`. Object URLs
are identified by creation order, so the scan state carries the next
fresh id. -/

/-- A raw file descriptor as delivered by either enumeration strategy. -/
structure RawFile where
  name : String
  relPath : String
  size : ℚ
  mtime : ℚ
deriving DecidableEq, Repr

/-- The test `VIDEO_EXT = /\.(mp4|mkv|mov|webm|avi|m4v)$/i` (`src/app.js` 2). -/
def hasVideoExt (name : String) : Bool :=
  [".mp4", ".mkv", ".mov", ".webm", ".avi", ".m4v"].any fun e =>
    String.endsWith (String.mk (lowerL name.toList)) e

/-- The function `trackObjectURL` (`src/app.js` 29-32): `objectURLs.add(url)`. -/
def trackObjectURL (reg : List ℕ) (u : ℕ) : List ℕ :=
  if u ∈ reg then reg else reg ++ [u]

/-- One step of the scan loop (`src/app.js` 98-106 / 119-132): a video
file becomes an item carrying a fresh tracked object URL, other files
are skipped. The state is (items so far, registry, next fresh url id);
`db` is the persisted path-to-tags mapping consulted for the new item. -/
def scanStep (db : String → List String) :
    List Item × List ℕ × ℕ → RawFile → List Item × List ℕ × ℕ :=
  fun st f =>
    let its := st.1
    let reg := st.2.1
    let n := st.2.2
    if hasVideoExt f.name then
      (its ++ [⟨f.name, f.relPath, f.size, f.mtime, none, db f.relPath, some n⟩],
       trackObjectURL reg n, n + 1)
    else st

/-- A full scan starting from the empty registry (a scan is always
preceded by `revokeAllObjectURLs`, `src/app.js` 84 / 116). -/
def scan (db : String → List String) (files : List RawFile) :
    List Item × List ℕ × ℕ :=
  files.foldl (scanStep db) ([], [], 0)

/-- The effect of one item's finalize on the registry: `cleanupItem`
revokes the item's url if it has one. -/
def cleanupReg (it : Item) (reg : List ℕ) : List ℕ :=
  match it.url with
  | some u => revokeTrackedURL reg u
  | none => reg

/-- The registry after an enrichment pass has finalized the items in
some processing order (each item exactly once). -/
def enrichRegistry (order : List Item) (reg : List ℕ) : List ℕ :=
  order.foldl (fun r it => cleanupReg it r) reg

/-! ## The worker pool of `enrichAll` (`src/app.js` 140-156)

`enrichAll` spawns `concurrency = 3` identical async workers over one
shared cursor `idx`; a worker's claim (`idx < items.length` followed by
`items[idx++]`) is a single synchronous segment of the JS event loop, so
it is atomic; after `await enrichOne(me)` the worker increments `done`
and reports `done/total`. Workers are indistinguishable, so a pool state
is: the cursor, the completed count, how many workers sit at the loop
head, the multiset of indices currently inside `enrichOne`, and how many
workers have left the loop. `claimed`, `processed` and `reports` record
the observable history (indices read from the catalog, items whose
`enrichOne` returned, and the `done` values passed to `updateLoading`). -/

structure SchedState where
  idx : ℕ
  doneCount : ℕ
  ready : ℕ
  inflight : Multiset ℕ
  stopped : ℕ
  claimed : List ℕ
  processed : List ℕ
  reports : List ℕ
deriving DecidableEq

/-- All `W` workers start at the loop head over an untouched cursor. -/
def initSched (w : ℕ) : SchedState := ⟨0, 0, w, 0, 0, [], [], []⟩

/-- One interleaving step of the pool over an `n`-item catalog. -/
inductive SchedStep (n : ℕ) : SchedState → SchedState → Prop where
  /-- A worker at the loop head sees `idx < items.length` and atomically
  claims index `idx`, entering `enrichOne`. -/
  | claim (s : SchedState) (hr : 0 < s.ready) (hidx : s.idx < n) :
      SchedStep n s ⟨s.idx + 1, s.doneCount, s.ready - 1, s.idx ::ₘ s.inflight,
        s.stopped, s.claimed ++ [s.idx], s.processed, s.reports⟩
  /-- When `enrichOne` on item `i` returns, the worker runs `done++` and
  `updateLoading`, then returns to the loop head. -/
  | finish (s : SchedState) (i : ℕ) (rest : Multiset ℕ) (hw : s.inflight = i ::ₘ rest) :
      SchedStep n s ⟨s.idx, s.doneCount + 1, s.ready + 1, rest,
        s.stopped, s.claimed, s.processed ++ [i], s.reports ++ [s.doneCount + 1]⟩
  /-- A worker at the loop head sees `idx ≥ items.length` and leaves. -/
  | leave (s : SchedState) (hr : 0 < s.ready) (hidx : n ≤ s.idx) :
      SchedStep n s ⟨s.idx, s.doneCount, s.ready - 1, s.inflight,
        s.stopped + 1, s.claimed, s.processed, s.reports⟩

/-- States reachable by the pool of `w` workers over `n` items. -/
inductive SchedReach (n w : ℕ) : SchedState → Prop where
  | start : SchedReach n w (initSched w)
  | next {s t : SchedState} : SchedReach n w s → SchedStep n s t → SchedReach n w t

/-! ## Rendering (`src/app.js` 207-224) -/

/-- The sort keys offered by the sort selector. -/
inductive SortKey where
  | name | date | size | dur
deriving DecidableEq, Repr

/-- Numeric model of `localeCompare` on the locale-free strings of the
embedding: sign of the lexicographic comparison. -/
def strCompare (a b : String) : ℚ :=
  if a < b then -1 else if b < a then 1 else 0

/-- The per-key comparator value `K` of `render` (`src/app.js` 217-222). -/
def sortVal (key : SortKey) (a b : Item) : ℚ :=
  match key with
  | .name => strCompare a.name b.name
  | .date => a.mtime - b.mtime
  | .size => a.size - b.size
  | .dur => orZero a.duration - orZero b.duration

/-- The sort direction `dir` (`src/app.js` 214): `-1` for a `*-desc` selection else `1`. -/
def sortDir (desc : Bool) : ℚ := if desc then -1 else 1

/-- Models `query.split(/\s+/)` on a trimmed query, empty query giving no
tokens (`src/app.js` 208-209). -/
def wsTokens (query : String) : List String :=
  let q := query.trim
  if q = "" then [] else (q.split Char.isWhitespace).filter fun s => s ≠ ""

/-- The pure data path of `render` (`src/app.js` 207-224): compile the
query to predicates, `filter` the catalog into a fresh array `out`,
sort only `out` with the comparator `K * dir`. Returns the catalog as
`render` leaves it together with the display list. -/
def render (st : List Item) (query : String) (key : SortKey) (desc : Bool) :
    List Item × List Item :=
  let filters := (wsTokens query).map parseToken
  let out := st.filter fun it => filters.all fun f => f it
  let sorted := out.mergeSort fun a b => decide (sortVal key a b * sortDir desc ≤ 0)
  (st, sorted)

/-! ## Token-family builders and concrete test items

`opChars`, `durTok`, `sizeTok` build whole families of query tokens so
that the filter-compilation theorems quantify over every operator, digit
run and unit rather than a single sample token. -/

/-- The characters of each comparison operator. -/
def opChars : Op → List Char
  | .lt => ['<']
  | .le => ['<', '=']
  | .eq => ['=']
  | .gt => ['>']
  | .ge => ['>', '=']

/-- The token `dur:<op><digits>`. -/
def durTok (op : Op) (ds : List Char) : String :=
  String.mk ('d' :: 'u' :: 'r' :: ':' :: (opChars op ++ ds))

/-- The size units the regex alternation `(kb|mb|gb|tb)` can recognise. -/
inductive BUnit where
  | kb | mb | gb | tb
deriving DecidableEq, Repr

/-- The characters of an optional unit suffix (absent ⇒ no characters). -/
def unitName : Option BUnit → List Char
  | none => []
  | some .kb => ['k', 'b']
  | some .mb => ['m', 'b']
  | some .gb => ['g', 'b']
  | some .tb => ['t', 'b']

/-- The byte multiplier the code assigns to each unit (default bytes). -/
def unitValQ : Option BUnit → ℚ
  | none => 1
  | some .kb => 1024
  | some .mb => 1024 ^ 2
  | some .gb => 1024 ^ 3
  | some .tb => 1024 ^ 4

/-- The token `size:<op><digits><unit?>`. -/
def sizeTok (op : Op) (ds : List Char) (u : Option BUnit) : String :=
  String.mk ('s' :: 'i' :: 'z' :: 'e' :: ':' :: (opChars op ++ ds ++ unitName u))

/-- A 30-second item (spec example for `dur:>60`). -/
def it30 : Item := ⟨"a.mp4", "a.mp4", 0, 0, some 30, [], none⟩

/-- A 90-second item (spec example for `dur:>60`). -/
def it90 : Item := ⟨"b.mp4", "b.mp4", 0, 0, some 90, [], none⟩

/-- An item whose duration never got enriched (spec example). -/
def itNoDur : Item := ⟨"c.mp4", "c.mp4", 0, 0, none, [], none⟩

/-- An item of `400*1024*1024 = 419430400` bytes (spec example for
`size:<500mb`). -/
def it400 : Item := ⟨"d.mp4", "d.mp4", 419430400, 0, none, [], none⟩

/-- An item of `600*1024*1024 = 629145600` bytes (spec example for
`size:<500mb`). -/
def it600 : Item := ⟨"e.mp4", "e.mp4", 629145600, 0, none, [], none⟩

/-- A 1-byte item whose name and path do not contain the text
`size:=1b`; used to refute the explicit-`b`-unit reading. -/
def itOneByte : Item := ⟨"f.mp4", "f.mp4", 1, 0, none, [], none⟩

/-- A 2-second item with a plain name; `dur:>1.5` does not select it
even though its duration exceeds 1.5. -/
def itVid : Item := ⟨"clip.mp4", "clip.mp4", 0, 0, some 2, [], none⟩

/-! ## Lemmas about first-occurrence deduplication -/

theorem mem_dedupKeepFirst (a : String) :
    ∀ (l seen : List String), a ∈ dedupKeepFirst seen l ↔ a ∈ l ∧ a ∉ seen := by
  intro l
  induction l with
  | nil => intro seen; simp [dedupKeepFirst]
  | cons t rest ih =>
    intro seen
    by_cases h : t ∈ seen
    · simp only [dedupKeepFirst, if_pos h, ih, List.mem_cons]
      constructor
      · rintro ⟨hr, hs⟩; exact ⟨Or.inr hr, hs⟩
      · rintro ⟨ht | hr, hs⟩
        · exact absurd (ht ▸ h) hs
        · exact ⟨hr, hs⟩
    · simp only [dedupKeepFirst, if_neg h, List.mem_cons, ih]
      constructor
      · rintro (rfl | ⟨hr, hs⟩)
        · exact ⟨Or.inl rfl, h⟩
        · exact ⟨Or.inr hr, fun hx => hs (Or.inr hx)⟩
      · rintro ⟨rfl | hr, hs⟩
        · exact Or.inl rfl
        · by_cases hat : a = t
          · exact Or.inl hat
          · exact Or.inr ⟨hr, by simp [hat, hs]⟩

theorem nodup_dedupKeepFirst : ∀ (l seen : List String), (dedupKeepFirst seen l).Nodup := by
  intro l
  induction l with
  | nil => intro seen; simp [dedupKeepFirst]
  | cons t rest ih =>
    intro seen
    by_cases h : t ∈ seen
    · simpa [dedupKeepFirst, if_pos h] using ih seen
    · simp only [dedupKeepFirst, if_neg h, List.nodup_cons]
      refine ⟨fun hmem => ?_, ih _⟩
      exact ((mem_dedupKeepFirst t rest (t :: seen)).mp hmem).2 (List.mem_cons_self t seen)

theorem dedupKeepFirst_eq_self :
    ∀ (l seen : List String), l.Nodup → (∀ a ∈ l, a ∉ seen) → dedupKeepFirst seen l = l := by
  intro l
  induction l with
  | nil => intro seen _ _; rfl
  | cons t rest ih =>
    intro seen hnd hout
    have ht : t ∉ seen := hout t (List.mem_cons_self t rest)
    simp only [dedupKeepFirst, if_neg ht]
    have hrest : rest.Nodup := (List.nodup_cons.mp hnd).2
    have htr : t ∉ rest := (List.nodup_cons.mp hnd).1
    congr 1
    refine ih (t :: seen) hrest fun a ha => ?_
    simp only [List.mem_cons]
    rintro (rfl | hs)
    · exact htr ha
    · exact hout a (List.mem_cons_of_mem _ ha) hs

theorem dedupKeepFirst_append_mem :
    ∀ (l seen : List String) (x : String), x ∈ l ∨ x ∈ seen →
      dedupKeepFirst seen (l ++ [x]) = dedupKeepFirst seen l := by
  intro l
  induction l with
  | nil =>
    intro seen x hx
    have : x ∈ seen := by simpa using hx
    simp [dedupKeepFirst, this]
  | cons t rest ih =>
    intro seen x hx
    by_cases h : t ∈ seen
    · simp only [List.cons_append, dedupKeepFirst, if_pos h]
      refine ih seen x ?_
      rcases hx with hmem | hs
      · rcases List.mem_cons.mp hmem with rfl | hr
        · exact Or.inr h
        · exact Or.inl hr
      · exact Or.inr hs
    · simp only [List.cons_append, dedupKeepFirst, if_neg h]
      congr 1
      refine ih (t :: seen) x ?_
      rcases hx with hmem | hs
      · rcases List.mem_cons.mp hmem with rfl | hr
        · exact Or.inr (List.mem_cons_self x seen)
        · exact Or.inl hr
      · exact Or.inr (List.mem_cons_of_mem _ hs)

/-! ## Claim theorems: tags (C5) -/

/-- C5 (amended): adding a tag `x` that is not already present and then
removing `x` restores the prior (duplicate-free, as the code maintains)
tag list exactly; and adding `x` twice always equals adding it once, so
the tag list stays duplicate-free. -/
theorem addTag_removeTag_roundtrip (tags : List String) (x : String) :
    (x ∉ tags → tags.Nodup → removeTag (addTag tags x) x = tags) ∧
    addTag (addTag tags x) x = addTag tags x := by
  constructor
  · intro hx hnd
    have happ : (tags ++ [x]).Nodup := by
      simp [List.nodup_append, hnd, hx]
    have h1 : addTag tags x = tags ++ [x] :=
      dedupKeepFirst_eq_self (tags ++ [x]) [] happ (by simp)
    rw [removeTag, h1, List.filter_append]
    have h3 : List.filter (fun a => decide (a ≠ x)) [x] = [] := by simp
    have h2 : List.filter (fun a => decide (a ≠ x)) tags = tags := by
      refine List.filter_eq_self.mpr fun a ha => ?_
      simp only [ne_eq, decide_eq_true_eq]
      rintro rfl; exact hx ha
    rw [h2, h3, List.append_nil]
  · have hm : x ∈ addTag tags x := by
      refine (mem_dedupKeepFirst x (tags ++ [x]) []).mpr ?_
      simp
    have hnd2 : (addTag tags x).Nodup := nodup_dedupKeepFirst _ _
    show jsSetDedup (addTag tags x ++ [x]) = addTag tags x
    rw [jsSetDedup, dedupKeepFirst_append_mem _ [] x (Or.inl hm)]
    exact dedupKeepFirst_eq_self _ [] hnd2 (by simp)

/-- C5 counterexample: when the tag `"x"` is already present, adding it
and removing it does not restore the prior tag set — the pre-existing
occurrence is deleted too. -/
theorem addTag_removeTag_not_roundtrip_present :
    removeTag (addTag ["x"] "x") "x" = [] ∧ ([] : List String) ≠ ["x"] := by
  constructor
  · decide
  · decide

/-- Witness for `addTag_removeTag_roundtrip` at `tags = ["a"]`, `x = "x"`. -/
theorem addTag_removeTag_roundtrip_witness :
    (removeTag (addTag ["a"] "x") "x" = ["a"]) ∧
    addTag (addTag ["a"] "x") "x" = addTag ["a"] "x" :=
  ⟨(addTag_removeTag_roundtrip ["a"] "x").1 (by decide) (by decide),
   (addTag_removeTag_roundtrip ["a"] "x").2⟩

/-! ## Claim theorems: seek target (C6) -/

/-- C6: for a loaded duration `d ≥ 0`, the Extractor's seek target is
exactly `clamp(d * 0.1, 0.1, 1.0)`; the source's `(v.duration||1)`
fallback coincides with the clamp at `d = 0`. -/
theorem seekTarget_eq_clamp (d : ℚ) (h : 0 ≤ d) :
    seekTarget d = min (max (1 / 10) (d * (1 / 10))) 1 := by
  by_cases h0 : d = 0
  · subst h0
    show min (max (1 / 10) ((if (0:ℚ) = 0 then 1 else 0) * (1 / 10))) 1 = _
    norm_num
  · simp [seekTarget, h0]

/-- Witness for `seekTarget_eq_clamp` at `d = 5`. -/
theorem seekTarget_eq_clamp_witness :
    seekTarget 5 = min (max (1 / 10) (5 * (1 / 10))) 1 :=
  seekTarget_eq_clamp 5 (by decide)

/-! ## Claim theorems: the finalize gate (C1) -/

theorem finalize_of_done (s : EnrichState) (h : s.done = true) : finalize s = s := by
  simp [finalize, h]

theorem done_finalize (s : EnrichState) : (finalize s).done = true := by
  by_cases h : s.done = true
  · rw [finalize_of_done s h]; exact h
  · simp only [Bool.not_eq_true] at h
    simp only [finalize, h, Bool.false_eq_true, if_false]
    cases hu : s.itemUrl <;> simp [cleanupItem, hu]

theorem iterate_finalize_of_done (m : ℕ) (t : EnrichState) (h : t.done = true) :
    finalize^[m] t = t := by
  induction m with
  | zero => rfl
  | succ k ih => rw [Function.iterate_succ_apply, finalize_of_done t h, ih]

/-- C1: from a not-yet-done `enrichOne` state, any positive number of
trigger firings (timeout, `seeked`, `error` — in any order) has exactly
the effect of the first one: the flag is set, the item's object URL is
released once (`cleanupItem`), the video element is removed and the
promise is resolved exactly once; every later trigger is a no-op. -/
theorem finalize_exactly_once (s : EnrichState) (n : ℕ)
    (hdone : s.done = false) (hn : 1 ≤ n) :
    finalize^[n] s = finalize s ∧
    (finalize s).done = true ∧
    (finalize s).resolveCount = s.resolveCount + 1 ∧
    (finalize s).videoRemoved = true ∧
    (finalize s).itemUrl = none ∧
    (finalize s).registry = (cleanupItem s).registry := by
  obtain ⟨m, rfl⟩ : ∃ m, n = m + 1 := ⟨n - 1, by omega⟩
  refine ⟨?_, done_finalize s, ?_, ?_, ?_, ?_⟩
  · rw [Function.iterate_succ_apply]
    exact iterate_finalize_of_done m (finalize s) (done_finalize s)
  all_goals
    simp only [finalize, hdone, Bool.false_eq_true, if_false]
  all_goals
    cases hu : s.itemUrl <;> simp [cleanupItem, hu]

/-- Witness for `finalize_exactly_once`: a state holding url `0` in a
one-url registry, hit by `n = 3` triggers. -/
theorem finalize_exactly_once_witness :
    finalize^[3] ⟨false, some 0, [0], false, 0⟩ = finalize ⟨false, some 0, [0], false, 0⟩ ∧
    (finalize ⟨false, some 0, [0], false, 0⟩).done = true ∧
    (finalize ⟨false, some 0, [0], false, 0⟩).resolveCount = 0 + 1 ∧
    (finalize ⟨false, some 0, [0], false, 0⟩).videoRemoved = true ∧
    (finalize ⟨false, some 0, [0], false, 0⟩).itemUrl = none ∧
    (finalize ⟨false, some 0, [0], false, 0⟩).registry =
      (cleanupItem ⟨false, some 0, [0], false, 0⟩).registry :=
  finalize_exactly_once ⟨false, some 0, [0], false, 0⟩ 3 rfl (by decide)

/-! ## Lemmas about the token parsers -/

theorem toLower_of_isDigit (c : Char) (h : c.isDigit = true) : c.toLower = c := by
  simp only [Char.isDigit, decide_eq_true_eq, Bool.and_eq_true] at h
  have h57 : c.val.toNat ≤ 57 := h.2
  simp only [Char.toLower, Char.toNat]
  rw [if_neg]
  rintro ⟨h1, -⟩
  omega

theorem lowerL_of_digits (ds : List Char) (h : ∀ c ∈ ds, c.isDigit = true) :
    lowerL ds = ds := by
  induction ds with
  | nil => rfl
  | cons c rest ih =>
    simp only [lowerL, List.map_cons]
    rw [toLower_of_isDigit c (h c (List.mem_cons_self c rest))]
    congr 1
    exact ih fun d hd => h d (List.mem_cons_of_mem _ hd)

theorem takeWhile_of_all {p : Char → Bool} (ds : List Char) (h : ∀ c ∈ ds, p c = true) :
    ds.takeWhile p = ds := by
  induction ds with
  | nil => rfl
  | cons c rest ih =>
    rw [List.takeWhile_cons, if_pos (h c (List.mem_cons_self c rest))]
    congr 1
    exact ih fun d hd => h d (List.mem_cons_of_mem _ hd)

theorem dropWhile_of_all {p : Char → Bool} (ds : List Char) (h : ∀ c ∈ ds, p c = true) :
    ds.dropWhile p = [] := by
  induction ds with
  | nil => rfl
  | cons c rest ih =>
    rw [List.dropWhile_cons_of_pos (h c (List.mem_cons_self c rest))]
    exact ih fun d hd => h d (List.mem_cons_of_mem _ hd)

theorem takeWhile_append_of_all {p : Char → Bool} (ds rest : List Char)
    (h : ∀ c ∈ ds, p c = true) :
    (ds ++ rest).takeWhile p = ds ++ rest.takeWhile p := by
  induction ds with
  | nil => rfl
  | cons c tl ih =>
    rw [List.cons_append, List.takeWhile_cons, if_pos (h c (List.mem_cons_self c tl)),
      List.cons_append]
    congr 1
    exact ih fun d hd => h d (List.mem_cons_of_mem _ hd)

theorem dropWhile_append_of_all {p : Char → Bool} (ds rest : List Char)
    (h : ∀ c ∈ ds, p c = true) :
    (ds ++ rest).dropWhile p = rest.dropWhile p := by
  induction ds with
  | nil => rfl
  | cons c tl ih =>
    rw [List.cons_append, List.dropWhile_cons_of_pos (h c (List.mem_cons_self c tl))]
    exact ih fun d hd => h d (List.mem_cons_of_mem _ hd)

theorem digit_ne_eq_sign (c : Char) (h : c.isDigit = true) : ¬(c = '=') := by
  rintro rfl
  simp at h

/-- The operator alternation read off the front of `opChars op ++ tail`
recovers `op` and `tail`, for any `tail` that does not begin with `=`
(first-match-wins makes `<` and `<=` unambiguous). -/
theorem readOp_opChars (op : Op) (tail : List Char)
    (h : ∀ c, tail.head? = some c → ¬(c = '=')) :
    readOp (opChars op ++ tail) = some (op, tail) := by
  cases op with
  | lt =>
    cases tail with
    | nil => rfl
    | cons c r =>
      have hc : ¬(c = '=') := h c rfl
      simp [readOp, opChars, hc]
  | gt =>
    cases tail with
    | nil => rfl
    | cons c r =>
      have hc : ¬(c = '=') := h c rfl
      simp [readOp, opChars, hc]
  | le => rfl
  | ge => rfl
  | eq => rfl

theorem lowerL_opChars (op : Op) : lowerL (opChars op) = opChars op := by
  cases op <;> rfl

/-- The `dur:` regex accepts every token `dur:<op><digits>` and yields
the operator and the numeral's value. -/
theorem matchDur_durTok (op : Op) (ds : List Char)
    (hne : ds ≠ []) (hdig : ∀ c ∈ ds, c.isDigit = true) :
    matchDur (durTok op ds).toList = some (op, digitsVal ds) := by
  have htl : (durTok op ds).toList = 'd' :: 'u' :: 'r' :: ':' :: (opChars op ++ ds) := rfl
  have hlow : lowerL (durTok op ds).toList = 'd' :: 'u' :: 'r' :: ':' :: (opChars op ++ ds) := by
    rw [htl]
    show 'd'.toLower :: 'u'.toLower :: 'r'.toLower :: ':'.toLower ::
      List.map Char.toLower (opChars op ++ ds) = _
    rw [List.map_append]
    show 'd' :: 'u' :: 'r' :: ':' :: (lowerL (opChars op) ++ lowerL ds) = _
    rw [lowerL_opChars, lowerL_of_digits ds hdig]
  rw [matchDur, hlow]
  simp only [List.take, List.drop, if_pos]
  rw [readOp_opChars op ds fun c hc => digit_ne_eq_sign c (hdig c (by
    cases ds with
    | nil => simp at hc
    | cons a r => simp at hc; simp [hc]))]
  simp only [takeWhile_of_all ds hdig, dropWhile_of_all ds hdig]
  rw [if_pos ⟨hne, trivial⟩]

/-- A `durTok` token never begins with `#`. -/
theorem startsHash_durTok (op : Op) (ds : List Char) :
    startsHash (durTok op ds).toList = false := rfl

/-! ## Claim theorems: `dur:` filters (C7) -/

/-- C7: every token `dur:<op><digits>` with `op ∈ {<,<=,=,>,>=}`
compiles to the numeric comparison of the item's duration (absent
duration read as 0) against the numeral; in particular `dur:>60` over
durations `[30, 90, —]` selects exactly the 90-second item. -/
theorem parseToken_dur (op : Op) (ds : List Char) (it : Item)
    (hne : ds ≠ []) (hdig : ∀ c ∈ ds, c.isDigit = true) :
    parseToken (durTok op ds) it = cmp (orZero it.duration) op (digitsVal ds : ℚ) ∧
    [it30, it90, itNoDur].filter (parseToken "dur:>60") = [it90] := by
  constructor
  · rw [parseToken]
    simp only [startsHash_durTok, Bool.false_eq_true, if_false,
      matchDur_durTok op ds hne hdig]
  · decide

/-- Witness for `parseToken_dur`: `dur:<=120` on the 90-second item. -/
theorem parseToken_dur_witness :
    parseToken (durTok Op.le ['1', '2', '0']) it90 =
      cmp (orZero it90.duration) Op.le (digitsVal ['1', '2', '0'] : ℚ) ∧
    [it30, it90, itNoDur].filter (parseToken "dur:>60") = [it90] :=
  parseToken_dur Op.le ['1', '2', '0'] it90 (by decide) (by decide)

/-! ## Claim theorems: `size:` filters (C4) -/

theorem lowerL_sizeTok (op : Op) (ds : List Char) (u : Option BUnit)
    (hdig : ∀ c ∈ ds, c.isDigit = true) :
    lowerL (sizeTok op ds u).toList
      = 's' :: 'i' :: 'z' :: 'e' :: ':' :: (opChars op ++ (ds ++ unitName u)) := by
  show 's'.toLower :: 'i'.toLower :: 'z'.toLower :: 'e'.toLower :: ':'.toLower ::
    List.map Char.toLower (opChars op ++ ds ++ unitName u) = _
  rw [List.append_assoc, List.map_append]
  show 's' :: 'i' :: 'z' :: 'e' :: ':' ::
    (lowerL (opChars op) ++ List.map Char.toLower (ds ++ unitName u)) = _
  rw [List.map_append, lowerL_opChars]
  show _ :: _ :: _ :: _ :: _ :: (opChars op ++ (lowerL ds ++ lowerL (unitName u))) = _
  rw [lowerL_of_digits ds hdig]
  have hu : lowerL (unitName u) = unitName u := by
    cases u with
    | none => rfl
    | some b => cases b <;> rfl
  rw [hu]

theorem matchDur_sizeTok (op : Op) (ds : List Char) (u : Option BUnit)
    (hdig : ∀ c ∈ ds, c.isDigit = true) :
    matchDur (sizeTok op ds u).toList = none := by
  rw [matchDur, lowerL_sizeTok op ds u hdig]
  rfl

theorem matchSize_sizeTok (op : Op) (ds : List Char) (u : Option BUnit)
    (hne : ds ≠ []) (hdig : ∀ c ∈ ds, c.isDigit = true) :
    matchSize (sizeTok op ds u).toList = some (op, (digitsVal ds : ℚ) * unitValQ u) := by
  rw [matchSize, lowerL_sizeTok op ds u hdig]
  simp only [List.take, List.drop, if_pos]
  rw [readOp_opChars op _ fun c hc => digit_ne_eq_sign c (hdig c (by
    cases ds with
    | nil => exact absurd rfl hne
    | cons a r => simp at hc; simp [hc]))]
  have h0t : (unitName u).takeWhile Char.isDigit = [] := by
    cases u with
    | none => rfl
    | some b => cases b <;> rfl
  have h0d : (unitName u).dropWhile Char.isDigit = unitName u := by
    cases u with
    | none => rfl
    | some b => cases b <;> rfl
  have h1 : (ds ++ unitName u).takeWhile Char.isDigit = ds := by
    rw [takeWhile_append_of_all ds _ hdig, h0t, List.append_nil]
  have h2 : (ds ++ unitName u).dropWhile Char.isDigit = unitName u := by
    rw [dropWhile_append_of_all ds _ hdig, h0d]
  simp only [h1, h2]
  rw [if_neg hne]
  cases u with
  | none => rfl
  | some b => cases b <;> rfl

/-- A `sizeTok` token never begins with `#`. -/
theorem startsHash_sizeTok (op : Op) (ds : List Char) (u : Option BUnit) :
    startsHash (sizeTok op ds u).toList = false := rfl

/-- C4 counterexample: the claim admits an explicit unit `b`, but the
regex alternation `(kb|mb|gb|tb)?` does not; `size:=1b` on a 1-byte item
does not compile to the numeric comparison (which would match: the item
has exactly `1 = 1 * 1024^0` bytes) — it degrades to a substring test
that fails. -/
theorem parseToken_size_unit_b_counterexample :
    parseToken "size:=1b" itOneByte = false ∧ cmp itOneByte.size Op.eq 1 = true := by
  exact ⟨by decide, by decide⟩

/-- C4 (amended): every token `size:<op><digits><unit>` with
`op ∈ {<,<=,=,>,>=}` and `unit ∈ {kb,mb,gb,tb}` or absent (absent ⇒
bytes) compiles to the numeric comparison of the item's size in bytes
against `number * 1024^k` (`k = 1,2,3,4` for `kb,mb,gb,tb`, `k = 0` when
the unit is absent); an explicit `b` unit is not part of the grammar.
In particular `size:<500mb` matches an item of `400*1024*1024` bytes
and excludes one of `600*1024*1024` bytes. -/
theorem parseToken_size (op : Op) (ds : List Char) (u : Option BUnit) (it : Item)
    (hne : ds ≠ []) (hdig : ∀ c ∈ ds, c.isDigit = true) :
    parseToken (sizeTok op ds u) it = cmp it.size op ((digitsVal ds : ℚ) * unitValQ u) ∧
    parseToken "size:<500mb" it400 = true ∧
    parseToken "size:<500mb" it600 = false := by
  refine ⟨?_, ?_, ?_⟩
  · rw [parseToken]
    simp only [startsHash_sizeTok, Bool.false_eq_true, if_false,
      matchDur_sizeTok op ds u hdig, matchSize_sizeTok op ds u hne hdig]
  · have e1 : parseToken "size:<500mb" it400
        = cmp it400.size Op.lt ((digitsVal ['5', '0', '0'] : ℚ) * 1024 ^ 2) := rfl
    rw [e1]
    show decide ((419430400 : ℚ) < ((500 : ℕ) : ℚ) * 1024 ^ 2) = true
    rw [decide_eq_true_eq]
    norm_num
  · have e2 : parseToken "size:<500mb" it600
        = cmp it600.size Op.lt ((digitsVal ['5', '0', '0'] : ℚ) * 1024 ^ 2) := rfl
    rw [e2]
    show decide ((629145600 : ℚ) < ((500 : ℕ) : ℚ) * 1024 ^ 2) = false
    rw [decide_eq_false_iff_not]
    norm_num

/-- Witness for `parseToken_size`: `size:<500mb` on the 400 MiB item. -/
theorem parseToken_size_witness :
    parseToken (sizeTok Op.lt ['5', '0', '0'] (some BUnit.mb)) it400
      = cmp it400.size Op.lt ((digitsVal ['5', '0', '0'] : ℚ) * unitValQ (some BUnit.mb)) ∧
    parseToken "size:<500mb" it400 = true ∧
    parseToken "size:<500mb" it600 = false :=
  parseToken_size Op.lt ['5', '0', '0'] (some BUnit.mb) it400 (by decide) (by decide)

/-! ## Claim theorems: permissive fall-through (C8) -/

/-- C8: `parseToken` is a total function (it can raise nothing), and any
token that is not a `#` tag token and is accepted by neither the `dur:`
nor the `size:` pattern — unrecognized operator or unit combinations
included — compiles to the case-insensitive substring predicate over the
item's name or path. -/
theorem parseToken_fallthrough (tok : String) (it : Item)
    (h1 : startsHash tok.toList = false)
    (h2 : matchDur tok.toList = none)
    (h3 : matchSize tok.toList = none) :
    parseToken tok it =
      (hasSub (lowerL it.name.toList) (lowerL tok.toList) ||
       hasSub (lowerL it.path.toList) (lowerL tok.toList)) := by
  rw [parseToken]
  simp only [h1, Bool.false_eq_true, if_false, h2, h3]

/-- Witness for `parseToken_fallthrough`: the malformed token
`size:>=10xb` (unrecognized unit `xb`) on a plain item. -/
theorem parseToken_fallthrough_witness :
    parseToken "size:>=10xb" itVid =
      (hasSub (lowerL itVid.name.toList) (lowerL "size:>=10xb".toList) ||
       hasSub (lowerL itVid.path.toList) (lowerL "size:>=10xb".toList)) :=
  parseToken_fallthrough "size:>=10xb" itVid rfl rfl rfl

/-! ## Claim theorems: decimal numerals (C10) -/

/-- C10: `dur:` only accepts plain digit runs, so `dur:>1.5` degrades to
the substring predicate (and in particular does not select a 2-second
item), while the `size:` grammar accepts a decimal numeral:
`size:<1.5gb` still compiles to a numeric size comparison against
`1.5 * 1024^3`. -/
theorem parseToken_decimal_dur_vs_size :
    (∀ it : Item, parseToken "dur:>1.5" it =
      (hasSub (lowerL it.name.toList) (lowerL "dur:>1.5".toList) ||
       hasSub (lowerL it.path.toList) (lowerL "dur:>1.5".toList))) ∧
    (∀ it : Item, parseToken "size:<1.5gb" it =
      cmp it.size Op.lt ((1 + 5 / 10) * 1024 ^ 3)) ∧
    parseToken "dur:>1.5" itVid = false := by
  refine ⟨fun it => rfl, fun it => ?_, by decide⟩
  have e : parseToken "size:<1.5gb" it
      = cmp it.size Op.lt
          (((digitsVal ['1'] : ℚ) + (digitsVal ['5'] : ℚ) / (10 : ℚ) ^ (['5'] : List Char).length)
            * 1024 ^ 3) := rfl
  rw [e]
  have hv : (((digitsVal ['1'] : ℚ) + (digitsVal ['5'] : ℚ) / (10 : ℚ) ^ (['5'] : List Char).length)
      * 1024 ^ 3) = (1 + 5 / 10) * 1024 ^ 3 := by
    have d1 : digitsVal ['1'] = 1 := rfl
    have d5 : digitsVal ['5'] = 5 := rfl
    rw [d1, d5]
    norm_num
  rw [hv]

/-! ## Claim theorems: rendering is read-only on the catalog (C9) -/

/-- C9: for every query string and sort selection, `render` leaves the
catalog exactly as it was (same length, same elements, same order —
filtering builds a fresh array and only that copy is sorted), and the
displayed list is a permutation of the filtered catalog, which is itself
a sublist of the catalog. -/
theorem render_readonly_catalog (st : List Item) (q : String) (key : SortKey) (desc : Bool) :
    (render st q key desc).1 = st ∧
    (render st q key desc).2.Perm
      (st.filter fun it => ((wsTokens q).map parseToken).all fun f => f it) ∧
    (st.filter fun it => ((wsTokens q).map parseToken).all fun f => f it).Sublist st :=
  ⟨rfl, List.mergeSort_perm _ _, List.filter_sublist st⟩

/-! ## Claim theorems: the registry is empty after a pass (C2) -/

theorem scan_registry_spec (db : String → List String) :
    ∀ (files : List RawFile) (its : List Item) (reg : List ℕ) (n : ℕ),
      reg = its.filterMap Item.url → (∀ u ∈ reg, u < n) →
      (files.foldl (scanStep db) (its, reg, n)).2.1
        = (files.foldl (scanStep db) (its, reg, n)).1.filterMap Item.url ∧
      ∀ u ∈ (files.foldl (scanStep db) (its, reg, n)).2.1,
        u < (files.foldl (scanStep db) (its, reg, n)).2.2 := by
  intro files
  induction files with
  | nil => intro its reg n h1 h2; exact ⟨h1, h2⟩
  | cons f rest ih =>
    intro its reg n h1 h2
    simp only [List.foldl_cons]
    by_cases hv : hasVideoExt f.name = true
    · have hnot : n ∉ reg := fun hmem => absurd (h2 n hmem) (lt_irrefl n)
      have hstep : scanStep db (its, reg, n) f
          = (its ++ [⟨f.name, f.relPath, f.size, f.mtime, none, db f.relPath, some n⟩],
             reg ++ [n], n + 1) := by
        simp only [scanStep, hv, if_true, trackObjectURL, if_neg hnot]
      rw [hstep]
      refine ih _ _ _ ?_ ?_
      · rw [List.filterMap_append, ← h1]
        congr 1
      · intro u hu
        rcases List.mem_append.mp hu with h | h
        · exact Nat.lt_succ_of_lt (h2 u h)
        · have : u = n := by simpa using h
          omega
    · have hstep : scanStep db (its, reg, n) f = (its, reg, n) := by
        simp [scanStep, hv]
      rw [hstep]
      exact ih its reg n h1 h2

theorem enrichRegistry_of_perm :
    ∀ (order : List Item) (reg : List ℕ),
      reg.Perm (order.filterMap Item.url) → enrichRegistry order reg = [] := by
  intro order
  induction order with
  | nil =>
    intro reg h
    simpa [enrichRegistry] using h.eq_nil
  | cons it rest ih =>
    intro reg h
    cases hu : it.url with
    | none =>
      have h' : reg.Perm (rest.filterMap Item.url) := by
        simpa [List.filterMap_cons, hu] using h
      simpa [enrichRegistry, List.foldl_cons, cleanupReg, hu] using ih reg h'
    | some u =>
      have h' : reg.Perm (u :: rest.filterMap Item.url) := by
        simpa [List.filterMap_cons, hu] using h
      have he : (reg.erase u).Perm (rest.filterMap Item.url) := by
        have := h'.erase u
        simpa [List.erase_cons_head] using this
      simpa [enrichRegistry, List.foldl_cons, cleanupReg, hu, revokeTrackedURL]
        using ih (reg.erase u) he

/-- C2: after a scan (which starts from the registry emptied by
`revokeAllObjectURLs`) and an enrichment pass that finalizes every
scanned item exactly once — in any processing order the 3 workers may
produce — the object-URL registry is empty, so the
`console.assert(objectURLs.size === 0)` after the pass cannot fire. -/
theorem enrich_pass_empties_registry (db : String → List String) (files : List RawFile)
    (order : List Item) (hperm : order.Perm (scan db files).1) :
    enrichRegistry order (scan db files).2.1 = [] := by
  obtain ⟨hreg, -⟩ := scan_registry_spec db files [] [] 0 rfl (by simp)
  apply enrichRegistry_of_perm
  show (scan db files).2.1.Perm (order.filterMap Item.url)
  rw [show (scan db files).2.1 = (scan db files).1.filterMap Item.url from hreg]
  exact (hperm.filterMap Item.url).symm

/-- Witness for `enrich_pass_empties_registry`: a scan over two videos
and one non-video, processed in scan order. -/
theorem enrich_pass_empties_registry_witness :
    enrichRegistry
      (scan (fun _ => []) [⟨"a.mp4", "a.mp4", 1, 0⟩, ⟨"b.txt", "b.txt", 1, 0⟩,
        ⟨"c.mkv", "d/c.mkv", 2, 0⟩]).1
      (scan (fun _ => []) [⟨"a.mp4", "a.mp4", 1, 0⟩, ⟨"b.txt", "b.txt", 1, 0⟩,
        ⟨"c.mkv", "d/c.mkv", 2, 0⟩]).2.1 = [] :=
  enrich_pass_empties_registry (fun _ => [])
    [⟨"a.mp4", "a.mp4", 1, 0⟩, ⟨"b.txt", "b.txt", 1, 0⟩, ⟨"c.mkv", "d/c.mkv", 2, 0⟩]
    _ (List.Perm.refl _)

/-! ## Claim theorems: the three-worker scheduler (C3) -/

theorem coe_append_add_cons (p : List ℕ) (i : ℕ) (rest : Multiset ℕ) :
    (↑(p ++ [i]) : Multiset ℕ) + rest = ↑p + (i ::ₘ rest) := by
  rw [← Multiset.coe_add, add_assoc, Multiset.coe_singleton, Multiset.singleton_add]

/-- The inductive invariant of the pool: the cursor never passes the
catalog, claims are exactly the cursor's prefix of indices in order,
progress reports are `1, 2, ...` up to the completed count, the
completed items plus the in-flight items are exactly the claimed
indices, a worker only leaves once the cursor has reached the end, and
workers are conserved. -/
theorem sched_invariant {n w : ℕ} {s : SchedState} (h : SchedReach n w s) :
    s.idx ≤ n ∧
    s.claimed = List.range s.idx ∧
    s.doneCount = s.processed.length ∧
    s.reports = List.range' 1 s.doneCount ∧
    (s.processed : Multiset ℕ) + s.inflight = Multiset.range s.idx ∧
    (0 < s.stopped → s.idx = n) ∧
    s.ready + Multiset.card s.inflight + s.stopped = w := by
  induction h with
  | start =>
    refine ⟨Nat.zero_le n, rfl, rfl, rfl, ?_, by simp [initSched], by simp [initSched]⟩
    show ((([] : List ℕ) : Multiset ℕ) + 0 = Multiset.range 0)
    simp
  | next hr hstep ih =>
    rename_i s t
    obtain ⟨h1, h2, h3, h4, h5, h6, h7⟩ := ih
    cases hstep with
    | claim hrdy hidx =>
      refine ⟨?_, ?_, h3, h4, ?_, ?_, ?_⟩
      · show s.idx + 1 ≤ n
        omega
      · show s.claimed ++ [s.idx] = List.range (s.idx + 1)
        rw [h2, ← List.range_succ]
      · show (s.processed : Multiset ℕ) + (s.idx ::ₘ s.inflight) = Multiset.range (s.idx + 1)
        rw [← Multiset.singleton_add, add_left_comm, Multiset.singleton_add, h5,
          ← Multiset.range_succ]
      · show 0 < s.stopped → s.idx + 1 = n
        intro hst
        have := h6 hst
        omega
      · show s.ready - 1 + Multiset.card (s.idx ::ₘ s.inflight) + s.stopped = w
        rw [Multiset.card_cons]
        omega
    | finish i rest hw =>
      have hc : Multiset.card s.inflight = Multiset.card rest + 1 := by
        rw [hw, Multiset.card_cons]
      refine ⟨h1, h2, ?_, ?_, ?_, h6, ?_⟩
      · show s.doneCount + 1 = (s.processed ++ [i]).length
        rw [List.length_append, ← h3]
        rfl
      · show s.reports ++ [s.doneCount + 1] = List.range' 1 (s.doneCount + 1)
        have hone : 1 + 1 * s.doneCount = s.doneCount + 1 := by omega
        rw [List.range'_concat, hone, ← h4]
      · show (↑(s.processed ++ [i]) : Multiset ℕ) + rest = Multiset.range s.idx
        rw [coe_append_add_cons, ← hw, h5]
      · show s.ready + 1 + Multiset.card rest + s.stopped = w
        omega
    | leave hrdy hidx =>
      refine ⟨h1, h2, h3, h4, h5, ?_, ?_⟩
      · show 0 < s.stopped + 1 → s.idx = n
        intro
        omega
      · show s.ready - 1 + Multiset.card s.inflight + (s.stopped + 1) = w
        omega

/-- C3: when the three-worker pool of `enrichAll` has fully stopped on
an `n`-item catalog, the claimed indices are exactly `0..n-1` in order
(no index claimed twice, none skipped), the processed items are exactly
those `n` indices (each processed exactly once, in some interleaving
order), and the reported completed counter took exactly the values
`1, 2, ..., n`, increasing by one per finished item. -/
theorem enrichAll_processes_each_item_once (n : ℕ) (s : SchedState)
    (h : SchedReach n 3 s) (hstop : s.stopped = 3) :
    s.claimed = List.range n ∧
    s.processed.Perm (List.range n) ∧
    s.reports = List.range' 1 n ∧
    s.doneCount = n := by
  obtain ⟨h1, h2, h3, h4, h5, h6, h7⟩ := sched_invariant h
  have hidx : s.idx = n := h6 (by omega)
  have hinf : s.inflight = 0 := by
    have hcard : Multiset.card s.inflight = 0 := by omega
    exact Multiset.card_eq_zero.mp hcard
  rw [hinf, add_zero, hidx] at h5
  have hperm : s.processed.Perm (List.range n) := by
    have hco : (s.processed : Multiset ℕ) = (↑(List.range n) : Multiset ℕ) := by rw [h5]; rfl
    exact Multiset.coe_eq_coe.mp hco
  have hdone : s.doneCount = n := by
    rw [h3, hperm.length_eq, List.length_range]
  refine ⟨hidx ▸ h2, hperm, ?_, hdone⟩
  rw [h4, hdone]

/-- Witness for `enrichAll_processes_each_item_once`: an explicit
interleaving of the three workers over a one-item catalog — one worker
claims and finishes the item, then all three observe the exhausted
cursor and stop. -/
theorem enrichAll_processes_each_item_once_witness :
    ([0] : List ℕ) = List.range 1 ∧ ([0] : List ℕ).Perm (List.range 1) ∧
    ([1] : List ℕ) = List.range' 1 1 ∧ (1 : ℕ) = 1 := by
  have h0 : SchedReach 1 3 (initSched 3) := SchedReach.start
  have h1 := SchedReach.next h0 (SchedStep.claim (initSched 3) (by decide) (by decide))
  have h2 := SchedReach.next h1 (SchedStep.finish _ 0 0 rfl)
  have h3 := SchedReach.next h2 (SchedStep.leave _ (by decide) (by decide))
  have h4 := SchedReach.next h3 (SchedStep.leave _ (by decide) (by decide))
  have h5 := SchedReach.next h4 (SchedStep.leave _ (by decide) (by decide))
  exact enrichAll_processes_each_item_once 1 _ h5 rfl

end App
